import Mathlib

/-!
Verification of the grid model and A* search engine of the `astar` program
(`src/app.rs`).  The embedding is executable: grids are lists of terrain
rows, the search loop is fuel-indexed (the fuel bound is proved sufficient),
and costs are represented exactly.

Cost representation: the source stores costs in `f32`, built from the
constants `DIAGONAL_COST = 1.414` and `REGULAR_COST = 1.0` and from the
Euclidean heuristic `distance`.  Here a cost value `⟨num, sq⟩` denotes the
real number `num / 500 + Real.sqrt sq`: g-scores are exact multiples of
1/500 (1.414 = 707/500, 1.0 = 500/500) and the heuristic contributes the
square root of an integer (the squared coordinate deltas).  The frontier
comparison decides the order of those real values exactly by integer
arithmetic.
-/

/-- Grid coordinate, a pair of non-negative integers (`struct Coord`). -/
structure Coord where
  x : ℕ
  y : ℕ
deriving DecidableEq, Repr

/-- Terrain of one cell (`enum Land`). -/
inductive Land where
  | Pass : Land
  | Block : Land
deriving DecidableEq, Repr

/-- The grid (`struct Level`): rows of terrain with cached height and width. -/
structure Level where
  grid : List (List Land)
  height : ℕ
  width : ℕ
deriving DecidableEq, Repr

/-- Well-formedness recorded by construction in the source: `height` is the
number of rows and every row has length `width` (rectangularity). -/
def Level.WF (lvl : Level) : Prop :=
  lvl.height = lvl.grid.length ∧ ∀ row ∈ lvl.grid, row.length = lvl.width

/-- Bounds test (`Coord::is_inside`): `x < width && y < height`. -/
def Coord.is_inside (c : Coord) (lvl : Level) : Prop :=
  c.x < lvl.width ∧ c.y < lvl.height

instance (c : Coord) (lvl : Level) : Decidable (c.is_inside lvl) :=
  inferInstanceAs (Decidable (_ ∧ _))

/-- Terrain lookup (`impl Index<&Coord> for Level`, `self.grid[coord.y][coord.x]`).
The source indexes unchecked and would panic outside the grid; the embedding
returns `Block` there, and every claim below restricts attention to inside
coordinates. -/
def Level.index (lvl : Level) (c : Coord) : Land :=
  (lvl.grid.getD c.y []).getD c.x Land.Block

/-- Largest valid x (`Level::max_x`, `width - 1` in `usize`). -/
def Level.max_x (lvl : Level) : ℕ := lvl.width - 1

/-- Largest valid y (`Level::max_y`, `height - 1` in `usize`). -/
def Level.max_y (lvl : Level) : ℕ := lvl.height - 1

/-- Neighbour generation (`Level::neighbours`): all cells of the bound-clamped
3×3 box around `pos`, except `pos` itself, that hold `Pass` terrain; generated
with `x` as the outer loop and `y` as the inner loop. -/
def Level.neighbours (lvl : Level) (pos : Coord) : List Coord :=
  let min_x := if pos.x = 0 then 0 else pos.x - 1
  let min_y := if pos.y = 0 then 0 else pos.y - 1
  let max_x := if pos.x = lvl.max_x then pos.x else pos.x + 1
  let max_y := if pos.y = lvl.max_y then pos.y else pos.y + 1
  (List.range' min_x (max_x + 1 - min_x)).flatMap (fun x =>
    (List.range' min_y (max_y + 1 - min_y)).filterMap (fun y =>
      let c : Coord := ⟨x, y⟩
      if c ≠ pos ∧ lvl.index c = Land.Pass then some c else none))

/-! Level construction from text (`Level::from_file`, file reading aside). -/

/-- Split a text into lines the way Rust's `str::lines` does: pieces
separated by `'\n'`. The resulting pieces still carry a possible trailing
`'\r'` and include a final empty piece when the text ends with `'\n'`. -/
def splitNl : List Char → List (List Char)
  | [] => [[]]
  | c :: cs =>
    if c = '\n' then [] :: splitNl cs
    else
      match splitNl cs with
      | [] => [[c]]
      | l :: ls => (c :: l) :: ls

/-- Drop one trailing carriage return from a line (Rust `str::lines`). -/
def stripCr (l : List Char) : List Char :=
  if l.getLast? = some '\r' then l.dropLast else l

/-- Rust `str::lines` on a character list: split at `'\n'`, drop the final
empty piece produced by a trailing newline, and strip a trailing `'\r'`
from every `'\n'`-terminated piece (a final piece without a newline keeps
a trailing carriage return, as in Rust). -/
def linesOf (cs : List Char) : List (List Char) :=
  if cs = [] then []
  else if cs.getLast? = some '\n' then ((splitNl cs).dropLast).map stripCr
  else ((splitNl cs).dropLast).map stripCr ++ [(splitNl cs).getLastD []]

/-- Parse one row of terrain markers: `'.'` is `Pass`, `'#'` is `Block`,
anything else is the malformed-level error (`ArgsError::InvalidLevel`). -/
def parseRow : List Char → Option (List Land)
  | [] => some []
  | c :: cs =>
    match (if c = '.' then some Land.Pass else if c = '#' then some Land.Block else none) with
    | none => none
    | some l => (parseRow cs).map (fun row => l :: row)

/-- Check each line against the width of the first line and parse it
(the `for line in lines` loop of `Level::from_file`). -/
def buildRows (width : ℕ) : List (List Char) → Option (List (List Land))
  | [] => some []
  | l :: ls =>
    if l.length ≠ width then none
    else
      match parseRow l with
      | none => none
      | some row => (buildRows width ls).map (fun rows => row :: rows)

/-- Level construction from a list of lines (`Level::from_file` after
`lines()`): empty input is rejected, every line must match the first line's
length and parse as terrain markers.  `none` models `ArgsError::InvalidLevel`. -/
def Level.fromLines (ls : List (List Char)) : Option Level :=
  if ls.length = 0 then none
  else
    let width := (ls.headD []).length
    (buildRows width ls).map (fun rows => ⟨rows, ls.length, width⟩)

/-- Level construction from raw text (`Level::from_file` minus the file I/O). -/
def Level.fromText (cs : List Char) : Option Level :=
  Level.fromLines (linesOf cs)

/-! The A* search engine (`find` and its helpers). -/

/-- Squared Euclidean distance between two coordinates.  The source's
`distance` returns `√sqDist` as an `f32`; the embedding keeps the radicand. -/
def sqDist (a b : Coord) : ℕ :=
  (((a.x : ℤ) - b.x) ^ 2 + ((a.y : ℤ) - b.y) ^ 2).toNat

/-- Cost of a diagonal step in units of 1/500 (`DIAGONAL_COST = 1.414`). -/
def DIAGONAL_COST : ℕ := 707

/-- Cost of an orthogonal step in units of 1/500 (`REGULAR_COST = 1.0`). -/
def REGULAR_COST : ℕ := 500

/-- Step cost from `cur` to neighbour `n`: diagonal iff both axes change
(`is_diagonal` in the source). -/
def stepCost (cur n : Coord) : ℕ :=
  if n.x ≠ cur.x ∧ n.y ≠ cur.y then DIAGONAL_COST else REGULAR_COST

/-- An exact cost value: `num / 500 + √sq` as a real number.  `num` is the
accumulated g-score part, `sq` the squared Euclidean heuristic part. -/
structure CostVal where
  num : ℕ
  sq : ℕ
deriving DecidableEq, Repr

/-- The real number a `CostVal` denotes. -/
noncomputable def CostVal.val (a : CostVal) : ℝ :=
  (a.num : ℝ) / 500 + Real.sqrt (a.sq : ℝ)

/-- Exact comparison of two cost values: decides
`a.num/500 + √a.sq < b.num/500 + √b.sq` by integer arithmetic (multiply by
500 and compare `a.num + √(250000·a.sq)` with `b.num + √(250000·b.sq)` by
repeated squaring).  This realizes the total order that `Candidate`'s
`partial_cmp` imposes on the finite costs occurring in the search. -/
def costLt (a b : CostVal) : Bool :=
  let d : ℤ := (b.num : ℤ) - (a.num : ℤ)
  let sa : ℤ := 250000 * (a.sq : ℤ)
  let sb : ℤ := 250000 * (b.sq : ℤ)
  if 0 ≤ d then
    let e : ℤ := sa - sb - d ^ 2
    if e < 0 then true else decide (e ^ 2 < 4 * d ^ 2 * sb)
  else
    let e : ℤ := sb - sa - d ^ 2
    decide (0 < e ∧ 4 * d ^ 2 * sa < e ^ 2)

/-- A frontier entry (`struct Candidate`): an f-score and a coordinate. -/
structure Candidate where
  cost : CostVal
  coord : Coord
deriving DecidableEq, Repr

/-- Remove from the frontier the entry the max-heap of reversed-order
`Candidate`s yields: an entry of minimal cost (`BinaryHeap::pop`; the order
among equal costs is internal to the heap, here the first minimal entry). -/
def popMin (l : List Candidate) : Option (Candidate × List Candidate) :=
  match l with
  | [] => none
  | h :: t =>
    let m := t.foldl (fun best x => if costLt x.cost best.cost then x else best) h
    some (m, l.erase m)

/-- The state threaded through the search loop of `find`: the frontier heap
`candidates`, the predecessor map `origin`, the closed set `seen`, the open
set, and the g-score (`prefix_cost` in the source, in units of 1/500) and
f-score (`whole_cost`) maps. -/
structure SearchState where
  candidates : List Candidate
  origin : Coord → Option Coord
  seen : Finset Coord
  openSet : Finset Coord
  gcost : Coord → Option ℕ
  wcost : Coord → Option CostVal

/-- The improvement test on an already-open neighbour: the tentative g-score
is strictly below the recorded one, a missing record counting as infinite
(`prefix_cost.get(&neighbor).unwrap_or(&INFINITY)` in the source). -/
def improves (npc : ℕ) (prev : Option ℕ) : Prop :=
  match prev with
  | some p => npc < p
  | none => True

instance (npc : ℕ) (prev : Option ℕ) : Decidable (improves npc prev) :=
  match prev with
  | some p => inferInstanceAs (Decidable (npc < p))
  | none => inferInstanceAs (Decidable True)

/-- Process one neighbour of the dequeued coordinate (the body of the
`for neighbor in neighbours` loop in `find`).  `cg` is the dequeued
coordinate's g-score (`current_prefix_cost`).  A neighbour not yet open is
enqueued and opened; an open neighbour is re-recorded only when the tentative
g-score strictly improves on the recorded one (a missing record counts as
infinite); in either recording case origin, g-score and f-score are written.
The existing frontier entry of an open neighbour is never touched. -/
def relaxNeighbor (endc cur : Coord) (cg : ℕ) (st : SearchState) (n : Coord) : SearchState :=
  let npc := cg + stepCost cur n
  let nwc : CostVal := ⟨npc, sqDist n endc⟩
  let upd : SearchState → SearchState := fun s =>
    { s with
      origin := fun c => if c = n then some cur else s.origin c
      gcost := fun c => if c = n then some npc else s.gcost c
      wcost := fun c => if c = n then some nwc else s.wcost c }
  if n ∈ st.openSet then
    if improves npc (st.gcost n) then upd st else st
  else
    upd { st with
            candidates := ⟨nwc, n⟩ :: st.candidates
            openSet := insert n st.openSet }

/-- Path reconstruction (the `while let Some(source_coord) = origin.get(cursor)`
loop in `find`): follow the origin map backwards, producing the coordinates
in end→start order.  The source loops unboundedly; the fuel passed at the
call site is proved large enough below. -/
def reconstruct (origin : Coord → Option Coord) : ℕ → Coord → List Coord
  | 0, c => [c]
  | fuel + 1, c =>
    match origin c with
    | none => [c]
    | some p => c :: reconstruct origin fuel p

/-- Result of a successful search (`struct Path`, without the rendering
back-reference): the reconstructed coordinates (end→start, as produced by
the source) and the dequeued total cost. -/
structure PathRes where
  coords : List Coord
  dist : CostVal
deriving DecidableEq, Repr

/-- The search loop of `find`, fuel-indexed.  `none` is fuel exhaustion
(proved unreachable below for the fuel used by `find`); `some none` is the
"no path" outcome (empty frontier); `some (some res)` is a found path. -/
def findLoop (lvl : Level) (endc : Coord) : ℕ → SearchState → Option (Option PathRes)
  | 0, _ => none
  | fuel + 1, st =>
    match popMin st.candidates with
    | none => some none
    | some (cand, rest) =>
      if cand.coord = endc then
        some (some ⟨reconstruct st.origin (lvl.width * lvl.height) cand.coord, cand.cost⟩)
      else
        let cur := cand.coord
        let st1 : SearchState :=
          { st with
              candidates := rest
              openSet := st.openSet.erase cur
              seen := insert cur st.seen }
        let ns := (lvl.neighbours cur).filter (fun c => c ∉ st1.seen)
        let cg := (st1.gcost cur).getD 0
        findLoop lvl endc fuel (ns.foldl (relaxNeighbor endc cur cg) st1)

/-- The initial search state of `find`: the frontier holds `start` at
f-score `distance(start, end)`, `start` is open with g-score 0 and f-score
equal to the initial heuristic. -/
def initState (start endc : Coord) : SearchState :=
  { candidates := [⟨⟨0, sqDist start endc⟩, start⟩]
    origin := fun _ => none
    seen := ∅
    openSet := {start}
    gcost := fun c => if c = start then some 0 else none
    wcost := fun c => if c = start then some ⟨0, sqDist start endc⟩ else none }

/-- The search entry point (`pub fn find`): blocked endpoints yield "no path"
immediately; otherwise the loop runs, with fuel `width·height + 1`, a bound
proved sufficient below. -/
def find (lvl : Level) (start endc : Coord) : Option PathRes :=
  if lvl.index start = Land.Block ∨ lvl.index endc = Land.Block then none
  else (findLoop lvl endc (lvl.width * lvl.height + 1) (initState start endc)).join

/-! Adjacency notions used by the claims. -/

/-- Two coordinates are within one step of each other on each axis. -/
def AxisClose (a b : Coord) : Prop :=
  a.x ≤ b.x + 1 ∧ b.x ≤ a.x + 1 ∧ a.y ≤ b.y + 1 ∧ b.y ≤ a.y + 1

instance (a b : Coord) : Decidable (AxisClose a b) :=
  inferInstanceAs (Decidable (_ ∧ _ ∧ _ ∧ _))

/-- 8-neighbourhood adjacency: distinct coordinates within one step on each axis. -/
def Adj (a b : Coord) : Prop :=
  b ≠ a ∧ AxisClose a b

instance (a b : Coord) : Decidable (Adj a b) :=
  inferInstanceAs (Decidable (_ ∧ _))

/-- One iteration of the search loop as a state transformer (identical to
the non-terminating branch of `findLoop`; a would-be terminating iteration
leaves the state unchanged).  Used to exhibit concrete intermediate states
of a run. -/
def loopStep (lvl : Level) (endc : Coord) (st : SearchState) : SearchState :=
  match popMin st.candidates with
  | none => st
  | some (cand, rest) =>
    if cand.coord = endc then st
    else
      let cur := cand.coord
      let st1 : SearchState :=
        { st with
            candidates := rest
            openSet := st.openSet.erase cur
            seen := insert cur st.seen }
      let ns := (lvl.neighbours cur).filter (fun c => c ∉ st1.seen)
      let cg := (st1.gcost cur).getD 0
      ns.foldl (relaxNeighbor endc cur cg) st1

/-- A concrete 4×3 grid (blocked at (2,0) and (2,1)) on which the search
from (0,2) to (3,0) reaches the strict-improvement branch. -/
def cexLevel : Level :=
  ⟨[[Land.Pass, Land.Pass, Land.Block, Land.Pass],
    [Land.Pass, Land.Pass, Land.Block, Land.Pass],
    [Land.Pass, Land.Pass, Land.Pass, Land.Pass]], 3, 4⟩

/-- The search state reached after two iterations of the loop of
`find cexLevel (0,2) (3,0)`: the third iteration dequeues (1,2) and finds
its open neighbour (2,2) strictly improvable. -/
def cexRun : SearchState :=
  loopStep cexLevel ⟨3, 0⟩ (loopStep cexLevel ⟨3, 0⟩ (initState ⟨0, 2⟩ ⟨3, 0⟩))

/-- The finite set of inside coordinates of a grid. -/
def allCells (lvl : Level) : Finset Coord :=
  (Finset.range lvl.width ×ˢ Finset.range lvl.height).image (fun p => ⟨p.1, p.2⟩)

/-- A connecting sequence of cells: starts at `s`, ends at `e`, every cell
inside and passable, consecutive cells 8-adjacent and distinct. -/
def IsPathSeq (lvl : Level) (s e : Coord) (l : List Coord) : Prop :=
  l.head? = some s ∧ l.getLast? = some e ∧
  (∀ c ∈ l, c.is_inside lvl ∧ lvl.index c = Land.Pass) ∧
  l.Chain' Adj

/-- The per-state part of the search-loop invariant: frontier entries have
pairwise distinct coordinates that realize exactly the open set, open and
closed cells are disjoint, inside and passable, the start is tracked, the
origin map holds adjacent closed predecessors with strictly smaller g-scores,
and the goal is never closed.  The frontier-closure property is kept apart
because it is only restored at the end of each loop iteration. -/
structure PInv (lvl : Level) (startc endc : Coord) (st : SearchState) : Prop where
  nodupC : (st.candidates.map Candidate.coord).Nodup
  heap_open : ∀ c : Coord, (∃ cd ∈ st.candidates, cd.coord = c) ↔ c ∈ st.openSet
  open_not_seen : ∀ c ∈ st.openSet, c ∉ st.seen
  mem_ok : ∀ c : Coord, (c ∈ st.openSet ∨ c ∈ st.seen) →
    c.is_inside lvl ∧ lvl.index c = Land.Pass
  start_mem : startc ∈ st.openSet ∨ startc ∈ st.seen
  seen_empty : st.seen = ∅ → st.openSet = {startc}
  start_seen : st.seen.Nonempty → startc ∈ st.seen
  origin_start : st.origin startc = none
  origin_tot : ∀ c : Coord, (c ∈ st.openSet ∨ c ∈ st.seen) → c ≠ startc →
    (st.origin c).isSome
  origin_ok : ∀ c p : Coord, st.origin c = some p → Adj p c ∧ p ∈ st.seen ∧
    c.is_inside lvl ∧ lvl.index c = Land.Pass ∧
    ∃ gp gc, st.gcost p = some gp ∧ st.gcost c = some gc ∧ gp < gc
  g_def : ∀ c : Coord, (c ∈ st.openSet ∨ c ∈ st.seen) → (st.gcost c).isSome
  end_not_seen : endc ∉ st.seen

/-- The full loop invariant: `PInv` together with closure of the closed set
under passable neighbours (every neighbour of a closed cell is tracked). -/
structure LoopInv (lvl : Level) (startc endc : Coord) (st : SearchState)
    extends PInv lvl startc endc st : Prop where
  closure : ∀ x ∈ st.seen, ∀ n ∈ lvl.neighbours x, n ∈ st.seen ∨ n ∈ st.openSet

/-- The malformed-input condition of level construction: no lines, a line
whose length differs from the first line's, or a character that is neither
of the two terrain markers. -/
def MalformedLines (ls : List (List Char)) : Prop :=
  ls = [] ∨ (∃ l ∈ ls, l.length ≠ (ls.headD []).length) ∨
    (∃ l ∈ ls, ∃ c ∈ l, c ≠ '.' ∧ c ≠ '#')

/-- Witness grid for the search-engine claims: one row, two passable cells. -/
def lvlW : Level := ⟨[[Land.Pass, Land.Pass]], 1, 2⟩

theorem Adj.symm {a b : Coord} (h : Adj a b) : Adj b a := by
  obtain ⟨hne, h1, h2, h3, h4⟩ := h
  exact ⟨fun he => hne he.symm, h2, h1, h4, h3⟩

/-- Arithmetic of the clamped ranges in `Level.neighbours`: for an inside
axis value `p < w`, the clamped interval `[p-1 or 0, p+1 or p]` contains `v`
iff `v` is within one of `p` and inside the axis bound. -/
theorem clampRange_iff (w p v : ℕ) (hp : p < w) :
    ((if p = 0 then 0 else p - 1) ≤ v ∧
      v < (if p = 0 then 0 else p - 1) +
        ((if p = w - 1 then p else p + 1) + 1 - (if p = 0 then 0 else p - 1))) ↔
    (p ≤ v + 1 ∧ v ≤ p + 1 ∧ v < w) := by
  split_ifs <;> omega

/-- Characterization of `Level.neighbours` membership for an inside position:
exactly the adjacent, inside, `Pass` coordinates. -/
theorem mem_neighbours (lvl : Level) (pos c : Coord) (hp : pos.is_inside lvl) :
    c ∈ lvl.neighbours pos ↔ Adj pos c ∧ c.is_inside lvl ∧ lvl.index c = Land.Pass := by
  obtain ⟨hx, hy⟩ := hp
  simp only [Level.neighbours, Level.max_x, Level.max_y, List.mem_flatMap, List.mem_range'_1,
    List.mem_filterMap, Option.ite_none_right_eq_some, Option.some.injEq]
  constructor
  · rintro ⟨x, hxm, y, hym, ⟨hne, hpass⟩, rfl⟩
    have h1 := (clampRange_iff lvl.width pos.x x hx).mp hxm
    have h2 := (clampRange_iff lvl.height pos.y y hy).mp hym
    exact ⟨⟨hne, h1.1, h1.2.1, h2.1, h2.2.1⟩, ⟨h1.2.2, h2.2.2⟩, hpass⟩
  · rintro ⟨⟨hne, b1, b2, b3, b4⟩, ⟨hcx, hcy⟩, hpass⟩
    exact ⟨c.x, (clampRange_iff lvl.width pos.x c.x hx).mpr ⟨b1, b2, hcx⟩,
           c.y, (clampRange_iff lvl.height pos.y c.y hy).mpr ⟨b3, b4, hcy⟩,
           ⟨hne, hpass⟩, rfl⟩

/-- The neighbour list is produced in ascending `x` order, ties broken by
ascending `y`. -/
theorem neighbours_pairwise (lvl : Level) (pos : Coord) :
    (lvl.neighbours pos).Pairwise (fun a b => a.x < b.x ∨ (a.x = b.x ∧ a.y < b.y)) := by
  unfold Level.neighbours
  rw [List.flatMap_def, List.pairwise_flatten]
  constructor
  · intro l' hl'
    simp only [List.mem_map] at hl'
    obtain ⟨x, _, rfl⟩ := hl'
    rw [List.pairwise_filterMap]
    refine (List.pairwise_lt_range' _ _).imp ?_
    rintro y1 y2 h12 c1 hc1 c2 hc2
    rw [Option.mem_def, Option.ite_none_right_eq_some, Option.some.injEq] at hc1 hc2
    rw [← hc1.2, ← hc2.2]
    exact Or.inr ⟨rfl, h12⟩
  · rw [List.pairwise_map]
    refine (List.pairwise_lt_range' _ _).imp ?_
    rintro x1 x2 h12 c1 hc1 c2 hc2
    simp only [List.mem_filterMap, Option.ite_none_right_eq_some, Option.some.injEq] at hc1 hc2
    obtain ⟨y1, _, _, rfl⟩ := hc1
    obtain ⟨y2, _, _, rfl⟩ := hc2
    exact Or.inl h12

/-- Claim C10: for every grid and inside coordinate, `neighbours` returns
exactly the inside, passable coordinates that differ from the input by at
most 1 on each axis and are not the input itself, listed in ascending `x`
order with ties broken by ascending `y`. -/
theorem neighbours_spec (lvl : Level) (pos : Coord) (hp : pos.is_inside lvl) :
    (∀ c, c ∈ lvl.neighbours pos ↔
        (c ≠ pos ∧ AxisClose pos c ∧ c.is_inside lvl ∧ lvl.index c = Land.Pass)) ∧
    (lvl.neighbours pos).Pairwise (fun a b => a.x < b.x ∨ (a.x = b.x ∧ a.y < b.y)) := by
  refine ⟨fun c => ?_, neighbours_pairwise lvl pos⟩
  rw [mem_neighbours lvl pos c hp]
  unfold Adj
  tauto

/-- Witness for C10 on a concrete 2×2 grid with one blocked cell. -/
theorem neighbours_spec_witness :
    (Coord.mk 0 0).is_inside ⟨[[Land.Pass, Land.Pass], [Land.Block, Land.Pass]], 2, 2⟩ ∧
    ((⟨1, 1⟩ : Coord) ∈ Level.neighbours ⟨[[Land.Pass, Land.Pass], [Land.Block, Land.Pass]], 2, 2⟩ ⟨0, 0⟩ ↔
      ((⟨1, 1⟩ : Coord) ≠ ⟨0, 0⟩ ∧ AxisClose ⟨0, 0⟩ ⟨1, 1⟩ ∧
        (Coord.mk 1 1).is_inside ⟨[[Land.Pass, Land.Pass], [Land.Block, Land.Pass]], 2, 2⟩ ∧
        Level.index ⟨[[Land.Pass, Land.Pass], [Land.Block, Land.Pass]], 2, 2⟩ ⟨1, 1⟩ = Land.Pass)) ∧
    (Level.neighbours ⟨[[Land.Pass, Land.Pass], [Land.Block, Land.Pass]], 2, 2⟩ ⟨0, 0⟩).Pairwise
      (fun a b => a.x < b.x ∨ (a.x = b.x ∧ a.y < b.y)) :=
  ⟨by decide,
   (neighbours_spec _ _ (by decide)).1 ⟨1, 1⟩,
   (neighbours_spec ⟨[[Land.Pass, Land.Pass], [Land.Block, Land.Pass]], 2, 2⟩ ⟨0, 0⟩ (by decide)).2⟩

/-- Claim C5: for every grid and inside start and end coordinates, if the
terrain at start or at end is `Block` then `find` returns the "no path"
result (`none`) immediately — a normal outcome, not an error. -/
theorem find_blocked_endpoint (lvl : Level) (s e : Coord)
    (_hs : s.is_inside lvl) (_he : e.is_inside lvl)
    (hb : lvl.index s = Land.Block ∨ lvl.index e = Land.Block) :
    find lvl s e = none := by
  unfold find
  rw [if_pos hb]

/-- Witness for C5: a blocked start cell on a concrete 1×2 grid. -/
theorem find_blocked_endpoint_witness :
    (Coord.mk 0 0).is_inside ⟨[[Land.Block, Land.Pass]], 1, 2⟩ ∧
    (Coord.mk 1 0).is_inside ⟨[[Land.Block, Land.Pass]], 1, 2⟩ ∧
    Level.index ⟨[[Land.Block, Land.Pass]], 1, 2⟩ ⟨0, 0⟩ = Land.Block ∧
    find ⟨[[Land.Block, Land.Pass]], 1, 2⟩ ⟨0, 0⟩ ⟨1, 0⟩ = none :=
  ⟨by decide, by decide, by decide,
   find_blocked_endpoint _ _ _ (by decide) (by decide) (Or.inl (by decide))⟩

/-! Claim C3: the treatment of an already-open neighbour in the search loop. -/

/-- Claim C3 (amended): in the loop body, when the processed neighbour is
already open, the engine rewrites its origin, g-score and f-score exactly
when the tentative g-score strictly improves on the recorded one (a missing
record counting as infinite); in all cases the frontier itself — in
particular the neighbour's existing queue entry — is left unchanged, i.e.
the entry is never re-prioritized. -/
theorem relax_open_neighbor (endc cur : Coord) (cg : ℕ) (st : SearchState) (n : Coord)
    (hop : n ∈ st.openSet) :
    ((relaxNeighbor endc cur cg st n).candidates = st.candidates) ∧
    (∀ prev, st.gcost n = some prev →
      (cg + stepCost cur n < prev →
        (relaxNeighbor endc cur cg st n).origin n = some cur ∧
        (relaxNeighbor endc cur cg st n).gcost n = some (cg + stepCost cur n) ∧
        (relaxNeighbor endc cur cg st n).wcost n = some ⟨cg + stepCost cur n, sqDist n endc⟩) ∧
      (¬ cg + stepCost cur n < prev → relaxNeighbor endc cur cg st n = st)) ∧
    (st.gcost n = none →
      (relaxNeighbor endc cur cg st n).origin n = some cur ∧
      (relaxNeighbor endc cur cg st n).gcost n = some (cg + stepCost cur n) ∧
      (relaxNeighbor endc cur cg st n).wcost n = some ⟨cg + stepCost cur n, sqDist n endc⟩) := by
  unfold relaxNeighbor
  rw [if_pos hop]
  refine ⟨?_, fun prev hprev => ⟨fun hlt => ?_, fun hnlt => ?_⟩, fun hnone => ?_⟩
  · by_cases himp : improves (cg + stepCost cur n) (st.gcost n) <;> simp [himp]
  · have himp : improves (cg + stepCost cur n) (st.gcost n) := by
      rw [hprev]
      exact hlt
    rw [if_pos himp]
    exact ⟨by simp, by simp, by simp⟩
  · have himp : ¬ improves (cg + stepCost cur n) (st.gcost n) := by
      rw [hprev]
      exact hnlt
    rw [if_neg himp]
  · have himp : improves (cg + stepCost cur n) (st.gcost n) := by
      rw [hnone]
      trivial
    rw [if_pos himp]
    exact ⟨by simp, by simp, by simp⟩


/-- Unfolding equation of `findLoop`: a dequeue that neither exhausts the
frontier nor reaches the goal performs exactly one `loopStep`. -/
theorem findLoop_step (lvl : Level) (endc : Coord) (fuel : ℕ) (st : SearchState)
    (cand : Candidate) (rest : List Candidate)
    (hpop : popMin st.candidates = some (cand, rest)) (hne : cand.coord ≠ endc) :
    findLoop lvl endc (fuel + 1) st = findLoop lvl endc fuel (loopStep lvl endc st) := by
  simp only [findLoop, loopStep, hpop]
  rw [if_neg hne, if_neg hne]

/-- Counterexample to claim C3 as stated, inside an actual run: on
`cexLevel`, searching from (0,2) to (3,0), the third loop iteration (the
run reaches exactly this state, as the first conjunct certifies) dequeues
(1,2) with g-score 500 and meets its already-open neighbour (2,2), recorded
at g-score 1414 with frontier entry ⟨(1414,5), (2,2)⟩; the tentative
g-score 500 + 500 strictly improves, origin/g-score/f-score are rewritten
to (1,2)/1000/(1000,5), yet the frontier still carries the old entry
⟨(1414,5), (2,2)⟩ and no entry with the new f-score: the entry is not
re-prioritized. -/
theorem relax_no_reprioritize_cex :
    find cexLevel ⟨0, 2⟩ ⟨3, 0⟩ =
      (findLoop cexLevel ⟨3, 0⟩ 10 (loopStep cexLevel ⟨3, 0⟩ cexRun)).join ∧
    popMin cexRun.candidates =
      some (⟨⟨500, 8⟩, ⟨1, 2⟩⟩,
        [⟨⟨1414, 5⟩, ⟨2, 2⟩⟩, ⟨⟨1207, 4⟩, ⟨1, 0⟩⟩, ⟨⟨1414, 9⟩, ⟨0, 0⟩⟩, ⟨⟨500, 10⟩, ⟨0, 1⟩⟩]) ∧
    (⟨2, 2⟩ : Coord) ∈ cexRun.openSet ∧
    cexRun.gcost ⟨1, 2⟩ = some 500 ∧
    cexRun.gcost ⟨2, 2⟩ = some 1414 ∧
    500 + stepCost ⟨1, 2⟩ ⟨2, 2⟩ < 1414 ∧
    (loopStep cexLevel ⟨3, 0⟩ cexRun).origin ⟨2, 2⟩ = some ⟨1, 2⟩ ∧
    (loopStep cexLevel ⟨3, 0⟩ cexRun).gcost ⟨2, 2⟩ = some 1000 ∧
    (loopStep cexLevel ⟨3, 0⟩ cexRun).wcost ⟨2, 2⟩ = some ⟨1000, 5⟩ ∧
    (loopStep cexLevel ⟨3, 0⟩ cexRun).candidates =
      [⟨⟨1414, 5⟩, ⟨2, 2⟩⟩, ⟨⟨1207, 4⟩, ⟨1, 0⟩⟩, ⟨⟨1414, 9⟩, ⟨0, 0⟩⟩, ⟨⟨500, 10⟩, ⟨0, 1⟩⟩] ∧
    Candidate.mk ⟨1000, 5⟩ ⟨2, 2⟩ ∉ (loopStep cexLevel ⟨3, 0⟩ cexRun).candidates := by
  have h1 : findLoop cexLevel ⟨3, 0⟩ (12 + 1) (initState ⟨0, 2⟩ ⟨3, 0⟩) =
      findLoop cexLevel ⟨3, 0⟩ 12 (loopStep cexLevel ⟨3, 0⟩ (initState ⟨0, 2⟩ ⟨3, 0⟩)) :=
    findLoop_step cexLevel ⟨3, 0⟩ 12 (initState ⟨0, 2⟩ ⟨3, 0⟩) ⟨⟨0, 13⟩, ⟨0, 2⟩⟩ []
      (by decide) (by decide)
  have h2 : findLoop cexLevel ⟨3, 0⟩ (11 + 1)
        (loopStep cexLevel ⟨3, 0⟩ (initState ⟨0, 2⟩ ⟨3, 0⟩)) =
      findLoop cexLevel ⟨3, 0⟩ 11 cexRun :=
    findLoop_step cexLevel ⟨3, 0⟩ 11 (loopStep cexLevel ⟨3, 0⟩ (initState ⟨0, 2⟩ ⟨3, 0⟩))
      ⟨⟨707, 5⟩, ⟨1, 1⟩⟩ [⟨⟨500, 8⟩, ⟨1, 2⟩⟩, ⟨⟨500, 10⟩, ⟨0, 1⟩⟩] (by decide) (by decide)
  have h3 : findLoop cexLevel ⟨3, 0⟩ (10 + 1) cexRun =
      findLoop cexLevel ⟨3, 0⟩ 10 (loopStep cexLevel ⟨3, 0⟩ cexRun) :=
    findLoop_step cexLevel ⟨3, 0⟩ 10 cexRun ⟨⟨500, 8⟩, ⟨1, 2⟩⟩
      [⟨⟨1414, 5⟩, ⟨2, 2⟩⟩, ⟨⟨1207, 4⟩, ⟨1, 0⟩⟩, ⟨⟨1414, 9⟩, ⟨0, 0⟩⟩, ⟨⟨500, 10⟩, ⟨0, 1⟩⟩]
      (by decide) (by decide)
  refine ⟨?_, by decide, by decide, by decide, by decide, by decide, by decide, by decide,
    by decide, by decide, by decide⟩
  show (findLoop cexLevel ⟨3, 0⟩ (cexLevel.width * cexLevel.height + 1)
      (initState ⟨0, 2⟩ ⟨3, 0⟩)).join = _
  rw [show cexLevel.width * cexLevel.height + 1 = 12 + 1 from rfl, h1, h2, h3]

/-! Infrastructure for the search-loop invariants. -/

theorem mem_allCells {lvl : Level} {c : Coord} : c ∈ allCells lvl ↔ c.is_inside lvl := by
  constructor
  · intro h
    simp only [allCells, Finset.mem_image, Finset.mem_product, Finset.mem_range] at h
    obtain ⟨⟨px, py⟩, ⟨h1, h2⟩, rfl⟩ := h
    exact ⟨h1, h2⟩
  · rintro ⟨h1, h2⟩
    simp only [allCells, Finset.mem_image, Finset.mem_product, Finset.mem_range]
    exact ⟨(c.x, c.y), ⟨h1, h2⟩, rfl⟩

theorem card_allCells (lvl : Level) : (allCells lvl).card = lvl.width * lvl.height := by
  rw [allCells, Finset.card_image_of_injective _ (fun a b h => ?_), Finset.card_product,
    Finset.card_range, Finset.card_range]
  obtain ⟨ax, ay⟩ := a
  obtain ⟨bx, by'⟩ := b
  simpa using h

theorem stepCost_pos (cur n : Coord) : 0 < stepCost cur n := by
  unfold stepCost DIAGONAL_COST REGULAR_COST
  split <;> omega

/-- For a rectangular grid, a `Pass` lookup certifies the coordinate inside. -/
theorem index_pass_inside {lvl : Level} {c : Coord} (hwf : lvl.WF)
    (h : lvl.index c = Land.Pass) : c.is_inside lvl := by
  obtain ⟨hh, hw⟩ := hwf
  unfold Level.index at h
  by_cases hy : c.y < lvl.grid.length
  · have hrow : lvl.grid.getD c.y [] ∈ lvl.grid := by
      rw [List.getD_eq_getElem _ _ hy]
      exact List.getElem_mem hy
    have hlen := hw _ hrow
    by_cases hx : c.x < (lvl.grid.getD c.y []).length
    · exact ⟨by omega, by omega⟩
    · have hd : (lvl.grid.getD c.y []).getD c.x Land.Block = Land.Block :=
        List.getD_eq_default _ _ (by omega)
      rw [hd] at h
      exact absurd h (by decide)
  · have hd : lvl.grid.getD c.y [] = [] := List.getD_eq_default _ _ (by omega)
    rw [hd, List.getD_eq_default _ _ (by simp : ([] : List Land).length ≤ c.x)] at h
    exact absurd h (by decide)

theorem foldlMin_mem (t : List Candidate) (h : Candidate) :
    t.foldl (fun best x => if costLt x.cost best.cost then x else best) h ∈ h :: t := by
  induction t generalizing h with
  | nil => simp
  | cons x t ih =>
    rw [List.foldl_cons]
    rcases List.mem_cons.mp (ih (if costLt x.cost h.cost then x else h)) with h3 | h3
    · rw [h3]
      by_cases hc : costLt x.cost h.cost
      · rw [if_pos hc]
        exact List.mem_cons_of_mem _ (List.mem_cons_self _ _)
      · rw [if_neg hc]
        exact List.mem_cons_self _ _
    · exact List.mem_cons_of_mem _ (List.mem_cons_of_mem _ h3)

theorem popMin_eq_none {l : List Candidate} : popMin l = none ↔ l = [] := by
  cases l <;> simp [popMin]

theorem popMin_some {l : List Candidate} {cd : Candidate} {rest : List Candidate}
    (h : popMin l = some (cd, rest)) : cd ∈ l ∧ rest = l.erase cd := by
  cases l with
  | nil => simp [popMin] at h
  | cons a t =>
    simp only [popMin, Option.some.injEq, Prod.mk.injEq] at h
    obtain ⟨h1, h2⟩ := h
    exact ⟨h1 ▸ foldlMin_mem t a, h2.symm ▸ h1 ▸ rfl⟩

/-- Coordinates of the frontier after removing one entry, given that entries
have pairwise distinct coordinates. -/
theorem erase_coords {l : List Candidate} {cd : Candidate}
    (hnd : (l.map Candidate.coord).Nodup) (hmem : cd ∈ l) (c : Coord) :
    (∃ cd' ∈ l.erase cd, cd'.coord = c) ↔ ((∃ cd' ∈ l, cd'.coord = c) ∧ c ≠ cd.coord) := by
  have hl : l.Nodup := hnd.of_map
  constructor
  · rintro ⟨cd', hcd', rfl⟩
    have h2 := (List.Nodup.mem_erase_iff hl).mp hcd'
    refine ⟨⟨cd', h2.2, rfl⟩, fun hco => h2.1 ?_⟩
    exact List.inj_on_of_nodup_map hnd h2.2 hmem hco
  · rintro ⟨⟨cd', hcd', rfl⟩, hne⟩
    exact ⟨cd', (List.Nodup.mem_erase_iff hl).mpr ⟨fun he => hne (he ▸ rfl), hcd'⟩, rfl⟩

theorem erase_coords_nodup {l : List Candidate} {cd : Candidate}
    (hnd : (l.map Candidate.coord).Nodup) :
    ((l.erase cd).map Candidate.coord).Nodup :=
  hnd.sublist (List.Sublist.map _ (List.erase_sublist cd l))


/-- Processing one unclosed neighbour preserves the state invariant: the
closed set is untouched, the open set only grows, the neighbour ends open,
and the dequeued coordinate's records survive. -/
theorem relax_pres (lvl : Level) (startc endc cur : Coord) (cg : ℕ)
    (st : SearchState) (n : Coord)
    (hadj : Adj cur n) (hnin : n.is_inside lvl) (hnpass : lvl.index n = Land.Pass)
    (hnseen : n ∉ st.seen) (hcur : cur ∈ st.seen) (hcg : st.gcost cur = some cg)
    (hP : PInv lvl startc endc st) :
    PInv lvl startc endc (relaxNeighbor endc cur cg st n) ∧
    (relaxNeighbor endc cur cg st n).seen = st.seen ∧
    st.openSet ⊆ (relaxNeighbor endc cur cg st n).openSet ∧
    n ∈ (relaxNeighbor endc cur cg st n).openSet ∧
    cur ∈ (relaxNeighbor endc cur cg st n).seen ∧
    (relaxNeighbor endc cur cg st n).gcost cur = some cg := by
  have hcn : cur ≠ n := fun h => hnseen (h ▸ hcur)
  have hsn : startc ≠ n := fun h => hnseen (h ▸ hP.start_seen ⟨cur, hcur⟩)
  have hse : ¬ st.seen = ∅ := fun h => absurd (h ▸ hcur) (Finset.not_mem_empty cur)
  have hupd : ∀ (cands : List Candidate) (opens : Finset Coord),
      ((cands.map Candidate.coord).Nodup) →
      (∀ c : Coord, (∃ cd ∈ cands, cd.coord = c) ↔ c ∈ opens) →
      (∀ c ∈ opens, c ∈ st.openSet ∨ c = n) →
      (st.openSet ⊆ opens) → n ∈ opens →
      PInv lvl startc endc
        { st with
            candidates := cands, openSet := opens,
            origin := fun c => if c = n then some cur else st.origin c
            gcost := fun c => if c = n then some (cg + stepCost cur n) else st.gcost c
            wcost := fun c => if c = n then some ⟨cg + stepCost cur n, sqDist n endc⟩
                              else st.wcost c } := by
    intro cands opens hnd2 hho hole hsub hnmem
    refine ⟨hnd2, hho, ?_, ?_, ?_, fun h => absurd h hse, hP.start_seen, ?_, ?_, ?_, ?_,
      hP.end_not_seen⟩
    · intro c hc
      rcases hole c hc with h | rfl
      · exact hP.open_not_seen c h
      · exact hnseen
    · intro c hc
      rcases hc with hc | hc
      · rcases hole c hc with h | rfl
        · exact hP.mem_ok c (Or.inl h)
        · exact ⟨hnin, hnpass⟩
      · exact hP.mem_ok c (Or.inr hc)
    · rcases hP.start_mem with h | h
      · exact Or.inl (hsub h)
      · exact Or.inr h
    · show (if startc = n then some cur else st.origin startc) = none
      rw [if_neg hsn]
      exact hP.origin_start
    · intro c hc hcs
      have hc' : c ∈ opens ∨ c ∈ st.seen := hc
      show (if c = n then some cur else st.origin c).isSome
      by_cases hcn' : c = n
      · rw [if_pos hcn']
        rfl
      · rw [if_neg hcn']
        rcases hc' with hc' | hc'
        · rcases hole c hc' with h | rfl
          · exact hP.origin_tot c (Or.inl h) hcs
          · exact absurd rfl hcn'
        · exact hP.origin_tot c (Or.inr hc') hcs
    · intro c p hcp
      have hcp' : (if c = n then some cur else st.origin c) = some p := hcp
      show Adj p c ∧ p ∈ st.seen ∧ c.is_inside lvl ∧ lvl.index c = Land.Pass ∧
        ∃ gp gc, (if p = n then some (cg + stepCost cur n) else st.gcost p) = some gp ∧
          (if c = n then some (cg + stepCost cur n) else st.gcost c) = some gc ∧ gp < gc
      by_cases hcn' : c = n
      · rw [if_pos hcn', Option.some.injEq] at hcp'
        cases hcp'
        rw [hcn']
        have hpos := stepCost_pos cur n
        refine ⟨hadj, hcur, hnin, hnpass, cg, cg + stepCost cur n, ?_, ?_, by omega⟩
        · rw [if_neg hcn]
          exact hcg
        · rw [if_pos rfl]
      · rw [if_neg hcn'] at hcp'
        obtain ⟨h1, h2, h3, h4, gp, gc, h5, h6, h7⟩ := hP.origin_ok c p hcp'
        have hpn : p ≠ n := fun h => hnseen (h ▸ h2)
        refine ⟨h1, h2, h3, h4, gp, gc, ?_, ?_, h7⟩
        · rw [if_neg hpn]
          exact h5
        · rw [if_neg hcn']
          exact h6
    · intro c hc
      have hc' : c ∈ opens ∨ c ∈ st.seen := hc
      show (if c = n then some (cg + stepCost cur n) else st.gcost c).isSome
      by_cases hcn' : c = n
      · rw [if_pos hcn']
        rfl
      · rw [if_neg hcn']
        rcases hc' with hc' | hc'
        · rcases hole c hc' with h | rfl
          · exact hP.g_def c (Or.inl h)
          · exact absurd rfl hcn'
        · exact hP.g_def c (Or.inr hc')
  unfold relaxNeighbor
  by_cases hop : n ∈ st.openSet
  · rw [if_pos hop]
    by_cases himp : improves (cg + stepCost cur n) (st.gcost n)
    · rw [if_pos himp]
      refine ⟨hupd st.candidates st.openSet hP.nodupC hP.heap_open
        (fun c hc => Or.inl hc) (fun c hc => hc) hop, rfl, subset_rfl, hop, hcur, ?_⟩
      show (if cur = n then some (cg + stepCost cur n) else st.gcost cur) = some cg
      rw [if_neg hcn]
      exact hcg
    · rw [if_neg himp]
      exact ⟨hP, rfl, subset_rfl, hop, hcur, hcg⟩
  · rw [if_neg hop]
    have hnotin : ¬ ∃ cd ∈ st.candidates, cd.coord = n := fun h => hop ((hP.heap_open n).mp h)
    have hnd2 : ((Candidate.mk ⟨cg + stepCost cur n, sqDist n endc⟩ n :: st.candidates).map
        Candidate.coord).Nodup := by
      rw [List.map_cons, List.nodup_cons]
      refine ⟨fun hmem => hnotin ?_, hP.nodupC⟩
      obtain ⟨cd, hcd, hco⟩ := List.mem_map.mp hmem
      exact ⟨cd, hcd, hco⟩
    have hho : ∀ c : Coord,
        (∃ cd ∈ (Candidate.mk ⟨cg + stepCost cur n, sqDist n endc⟩ n :: st.candidates),
          cd.coord = c) ↔ c ∈ insert n st.openSet := by
      intro c
      simp only [List.mem_cons, Finset.mem_insert]
      constructor
      · rintro ⟨cd, hcd | hcd, hco⟩
        · rw [hcd] at hco
          exact Or.inl hco.symm
        · exact Or.inr ((hP.heap_open c).mp ⟨cd, hcd, hco⟩)
      · rintro (rfl | hc)
        · exact ⟨_, Or.inl rfl, rfl⟩
        · obtain ⟨cd, hcd, hco⟩ := (hP.heap_open c).mpr hc
          exact ⟨cd, Or.inr hcd, hco⟩
    refine ⟨hupd _ _ hnd2 hho
        (fun c hc => ((Finset.mem_insert.mp hc).symm.imp (fun h => h) (fun h => h)))
        (Finset.subset_insert n st.openSet) (Finset.mem_insert_self n st.openSet),
      rfl, Finset.subset_insert n st.openSet, Finset.mem_insert_self n st.openSet, hcur, ?_⟩
    show (if cur = n then some (cg + stepCost cur n) else st.gcost cur) = some cg
    rw [if_neg hcn]
    exact hcg

/-- Relaxing a whole list of unclosed neighbours preserves the state
invariant; all of them end up open. -/
theorem fold_relax_pres (lvl : Level) (startc endc cur : Coord) (cg : ℕ) :
    ∀ (ns : List Coord) (st : SearchState),
    (∀ n ∈ ns, Adj cur n ∧ n.is_inside lvl ∧ lvl.index n = Land.Pass ∧ n ∉ st.seen) →
    cur ∈ st.seen → st.gcost cur = some cg → PInv lvl startc endc st →
    PInv lvl startc endc (ns.foldl (relaxNeighbor endc cur cg) st) ∧
    (ns.foldl (relaxNeighbor endc cur cg) st).seen = st.seen ∧
    st.openSet ⊆ (ns.foldl (relaxNeighbor endc cur cg) st).openSet ∧
    ∀ n ∈ ns, n ∈ (ns.foldl (relaxNeighbor endc cur cg) st).openSet := by
  intro ns
  induction ns with
  | nil =>
    intro st _ _ _ hP
    exact ⟨hP, rfl, subset_rfl, fun n hn => absurd hn (List.not_mem_nil n)⟩
  | cons n t ih =>
    intro st hns hcur hcg hP
    obtain ⟨hadj, hin, hpass, hnseen⟩ := hns n (List.mem_cons_self n t)
    obtain ⟨hP1, hseen1, hsub1, hopen1, hcur1, hcg1⟩ :=
      relax_pres lvl startc endc cur cg st n hadj hin hpass hnseen hcur hcg hP
    have hns1 : ∀ m ∈ t, Adj cur m ∧ m.is_inside lvl ∧ lvl.index m = Land.Pass ∧
        m ∉ (relaxNeighbor endc cur cg st n).seen := by
      intro m hm
      obtain ⟨h1, h2, h3, h4⟩ := hns m (List.mem_cons_of_mem n hm)
      refine ⟨h1, h2, h3, ?_⟩
      rw [hseen1]
      exact h4
    obtain ⟨hPf, hseenf, hsubf, hmemf⟩ :=
      ih (relaxNeighbor endc cur cg st n) hns1 hcur1 hcg1 hP1
    rw [List.foldl_cons]
    refine ⟨hPf, hseenf.trans hseen1, hsub1.trans hsubf, ?_⟩
    intro m hm
    rcases List.mem_cons.mp hm with rfl | hm
    · exact hsubf hopen1
    · exact hmemf m hm

/-- One full loop iteration — dequeue a non-goal coordinate, close it, relax
its unclosed neighbours — preserves the loop invariant; the closed set grows
by exactly the dequeued coordinate, which is inside and was not yet closed. -/
theorem step_pres (lvl : Level) (startc endc : Coord) (st : SearchState)
    (cand : Candidate) (rest : List Candidate)
    (hI : LoopInv lvl startc endc st)
    (hpop : popMin st.candidates = some (cand, rest))
    (hne : cand.coord ≠ endc) :
    LoopInv lvl startc endc
      (((lvl.neighbours cand.coord).filter
          (fun c => c ∉ insert cand.coord st.seen)).foldl
        (relaxNeighbor endc cand.coord ((st.gcost cand.coord).getD 0))
        { st with candidates := rest, openSet := st.openSet.erase cand.coord,
                  seen := insert cand.coord st.seen }) ∧
    (((lvl.neighbours cand.coord).filter
          (fun c => c ∉ insert cand.coord st.seen)).foldl
        (relaxNeighbor endc cand.coord ((st.gcost cand.coord).getD 0))
        { st with candidates := rest, openSet := st.openSet.erase cand.coord,
                  seen := insert cand.coord st.seen }).seen = insert cand.coord st.seen ∧
    cand.coord ∉ st.seen ∧ cand.coord.is_inside lvl := by
  obtain ⟨hmem, hrest⟩ := popMin_some hpop
  have hcuropen : cand.coord ∈ st.openSet := (hI.heap_open _).mp ⟨cand, hmem, rfl⟩
  have hcurseen : cand.coord ∉ st.seen := hI.open_not_seen _ hcuropen
  obtain ⟨hcurin, hcurpass⟩ := hI.mem_ok _ (Or.inl hcuropen)
  obtain ⟨gcur, hgcur⟩ := Option.isSome_iff_exists.mp (hI.g_def _ (Or.inl hcuropen))
  have hcg : (st.gcost cand.coord).getD 0 = gcur := by
    rw [hgcur]
    rfl
  have hP1 : PInv lvl startc endc
      { st with candidates := rest, openSet := st.openSet.erase cand.coord,
                seen := insert cand.coord st.seen } := by
    refine ⟨?_, ?_, ?_, ?_, ?_, ?_, ?_, hI.origin_start, ?_, ?_, ?_, ?_⟩
    · show ((rest).map Candidate.coord).Nodup
      rw [hrest]
      exact erase_coords_nodup hI.nodupC
    · intro c
      show (∃ cd ∈ rest, cd.coord = c) ↔ c ∈ st.openSet.erase cand.coord
      rw [hrest, erase_coords hI.nodupC hmem c, Finset.mem_erase, hI.heap_open c]
      exact And.comm
    · intro c hc
      have hc' : c ∈ st.openSet.erase cand.coord := hc
      obtain ⟨hne', hc''⟩ := Finset.mem_erase.mp hc'
      intro hin'
      rcases Finset.mem_insert.mp hin' with h | h
      · exact hne' h
      · exact hI.open_not_seen c hc'' h
    · intro c hc
      rcases hc with hc | hc
      · exact hI.mem_ok c (Or.inl (Finset.mem_erase.mp hc).2)
      · rcases Finset.mem_insert.mp hc with rfl | hc
        · exact ⟨hcurin, hcurpass⟩
        · exact hI.mem_ok c (Or.inr hc)
    · rcases hI.start_mem with h | h
      · by_cases hsc : startc = cand.coord
        · exact Or.inr (by rw [hsc]; exact Finset.mem_insert_self _ _)
        · exact Or.inl (Finset.mem_erase.mpr ⟨hsc, h⟩)
      · exact Or.inr (Finset.mem_insert_of_mem h)
    · intro h
      exact absurd h (Finset.insert_ne_empty _ _)
    · intro _
      by_cases hse : st.seen = ∅
      · have := hI.seen_empty hse
        have : cand.coord = startc := by
          have h2 := hcuropen
          rw [this] at h2
          exact (Finset.mem_singleton.mp h2)
        rw [← this]
        exact Finset.mem_insert_self _ _
      · exact Finset.mem_insert_of_mem
          (hI.start_seen (Finset.nonempty_iff_ne_empty.mpr hse))
    · intro c hc hcs
      rcases hc with hc | hc
      · exact hI.origin_tot c (Or.inl (Finset.mem_erase.mp hc).2) hcs
      · rcases Finset.mem_insert.mp hc with rfl | hc
        · exact hI.origin_tot _ (Or.inl hcuropen) hcs
        · exact hI.origin_tot c (Or.inr hc) hcs
    · intro c p hcp
      obtain ⟨h1, h2, h3, h4, h5⟩ := hI.origin_ok c p hcp
      exact ⟨h1, Finset.mem_insert_of_mem h2, h3, h4, h5⟩
    · intro c hc
      rcases hc with hc | hc
      · exact hI.g_def c (Or.inl (Finset.mem_erase.mp hc).2)
      · rcases Finset.mem_insert.mp hc with rfl | hc
        · exact hI.g_def _ (Or.inl hcuropen)
        · exact hI.g_def c (Or.inr hc)
    · intro h
      rcases Finset.mem_insert.mp h with h | h
      · exact hne h.symm
      · exact hI.end_not_seen h
  have hns : ∀ n ∈ (lvl.neighbours cand.coord).filter
      (fun c => c ∉ insert cand.coord st.seen),
      Adj cand.coord n ∧ n.is_inside lvl ∧ lvl.index n = Land.Pass ∧
      n ∉ insert cand.coord st.seen := by
    intro n hn
    obtain ⟨hn1, hn2⟩ := List.mem_filter.mp hn
    obtain ⟨ha, hb, hc⟩ := (mem_neighbours lvl cand.coord n hcurin).mp hn1
    exact ⟨ha, hb, hc, by simpa using hn2⟩
  obtain ⟨hPf, hseenf, hsubf, hmemf⟩ :=
    fold_relax_pres lvl startc endc cand.coord ((st.gcost cand.coord).getD 0) _ _
      hns (Finset.mem_insert_self _ _) (by rw [hcg]; exact hgcur) hP1
  refine ⟨⟨hPf, ?_⟩, hseenf, hcurseen, hcurin⟩
  intro x hx n hn
  rw [hseenf] at hx
  have hseenf' : _ = insert cand.coord st.seen := hseenf
  rcases Finset.mem_insert.mp hx with rfl | hx
  · by_cases hns' : n ∈ insert cand.coord st.seen
    · left
      rw [hseenf']
      exact hns'
    · right
      exact hmemf n (List.mem_filter.mpr ⟨hn, by simpa using hns'⟩)
  · rcases hI.closure x hx n hn with h | h
    · left
      rw [hseenf']
      exact Finset.mem_insert_of_mem h
    · by_cases hnc : n = cand.coord
      · left
        rw [hseenf', hnc]
        exact Finset.mem_insert_self _ _
      · right
        exact hsubf (Finset.mem_erase.mpr ⟨hnc, h⟩)

/-- The initial search state satisfies the loop invariant. -/
theorem initState_inv (lvl : Level) (startc endc : Coord)
    (hs : startc.is_inside lvl) (hps : lvl.index startc = Land.Pass) :
    LoopInv lvl startc endc (initState startc endc) := by
  refine ⟨⟨?_, ?_, ?_, ?_, ?_, ?_, ?_, rfl, ?_, ?_, ?_, ?_⟩, ?_⟩
  · simp [initState]
  · intro c
    simp [initState, eq_comm]
  · simp [initState]
  · intro c hc
    rcases hc with hc | hc
    · have : c = startc := by simpa [initState] using hc
      rw [this]
      exact ⟨hs, hps⟩
    · simp [initState] at hc
  · exact Or.inl (by simp [initState])
  · intro _
    rfl
  · intro h
    simp [initState] at h
  · intro c hc hcs
    rcases hc with hc | hc
    · have : c = startc := by simpa [initState] using hc
      exact absurd this hcs
    · simp [initState] at hc
  · intro c p h
    simp [initState] at h
  · intro c hc
    rcases hc with hc | hc
    · have : c = startc := by simpa [initState] using hc
      simp [initState, this]
    · simp [initState] at hc
  · simp [initState]
  · intro x hx
    simp [initState] at hx

/-- If the loop invariant holds and the fuel exceeds the number of inside
cells not yet closed, the loop reaches a result: every iteration either
terminates or closes one more inside cell, and closed cells are never
enqueued again. -/
theorem loop_terminates (lvl : Level) (startc endc : Coord) :
    ∀ (fuel : ℕ) (st : SearchState), LoopInv lvl startc endc st →
    (allCells lvl).card - st.seen.card < fuel →
    (findLoop lvl endc fuel st).isSome := by
  intro fuel
  induction fuel with
  | zero =>
    intro st _ h
    omega
  | succ fuel ih =>
    intro st hI hcard
    simp only [findLoop]
    cases hpop : popMin st.candidates with
    | none => rfl
    | some pr =>
      obtain ⟨cand, rest⟩ := pr
      dsimp only
      by_cases hend : cand.coord = endc
      · rw [if_pos hend]
        rfl
      · rw [if_neg hend]
        obtain ⟨hIf, hseenf, hcnot, hcin⟩ := step_pres lvl startc endc st cand rest hI hpop hend
        apply ih _ hIf
        rw [hseenf]
        have hsub : st.seen ⊆ allCells lvl :=
          fun c hc => mem_allCells.mpr (hI.mem_ok c (Or.inr hc)).1
        have hcall : cand.coord ∈ allCells lvl := mem_allCells.mpr hcin
        have h1 : (insert cand.coord st.seen).card = st.seen.card + 1 :=
          Finset.card_insert_of_not_mem hcnot
        have h2 : st.seen.card < (allCells lvl).card :=
          Finset.card_lt_card ⟨hsub, fun hts => hcnot (hts hcall)⟩
        omega

theorem getLast?_mem {α : Type} : ∀ {l : List α} {a : α}, l.getLast? = some a → a ∈ l := by
  intro l
  induction l with
  | nil =>
    intro a h
    simp at h
  | cons x t ih =>
    intro a h
    cases t with
    | nil =>
      simp at h
      rw [h]
      exact List.mem_cons_self _ _
    | cons y t' =>
      rw [List.getLast?_cons_cons] at h
      exact List.mem_cons_of_mem _ (ih h)

/-- With an exhausted frontier, the closed set absorbs every inside-passable
chain that starts inside it. -/
theorem seen_closed (lvl : Level) (startc endc : Coord) (st : SearchState)
    (hI : LoopInv lvl startc endc st) (hopen : st.openSet = ∅) :
    ∀ (l : List Coord), (∀ c ∈ l, c.is_inside lvl ∧ lvl.index c = Land.Pass) →
    l.Chain' Adj → ∀ a, l.head? = some a → a ∈ st.seen → ∀ c ∈ l, c ∈ st.seen := by
  intro l
  induction l with
  | nil =>
    intro _ _ a ha
    simp at ha
  | cons b t ih =>
    intro hmem hchain a ha has c hc
    rw [List.head?_cons, Option.some.injEq] at ha
    subst ha
    rcases List.mem_cons.mp hc with rfl | hc
    · exact has
    · cases t with
      | nil => simp at hc
      | cons b' t' =>
        have hchain' := List.chain'_cons.mp hchain
        have hb' : b' ∈ st.seen := by
          have hbmem := hmem b (List.mem_cons_self _ _)
          have hb'mem := hmem b' (List.mem_cons_of_mem _ (List.mem_cons_self _ _))
          have hnb : b' ∈ lvl.neighbours b :=
            (mem_neighbours lvl b b' hbmem.1).mpr ⟨hchain'.1, hb'mem.1, hb'mem.2⟩
          rcases hI.closure b has b' hnb with h | h
          · exact h
          · rw [hopen] at h
            exact absurd h (Finset.not_mem_empty _)
        exact ih (fun x hx => hmem x (List.mem_cons_of_mem _ hx)) hchain'.2 b' rfl hb' c hc

/-- A "no path" loop outcome under the invariant certifies that no
inside-passable 8-adjacent chain joins the start to the goal. -/
theorem loop_no_path (lvl : Level) (startc endc : Coord) :
    ∀ (fuel : ℕ) (st : SearchState), LoopInv lvl startc endc st →
    findLoop lvl endc fuel st = some none →
    ¬ ∃ l, IsPathSeq lvl startc endc l := by
  intro fuel
  induction fuel with
  | zero =>
    intro st _ h
    simp [findLoop] at h
  | succ fuel ih =>
    intro st hI hres
    cases hpop : popMin st.candidates with
    | none =>
      have hcand : st.candidates = [] := popMin_eq_none.mp hpop
      have hopen : st.openSet = ∅ := by
        refine Finset.eq_empty_iff_forall_not_mem.mpr fun c hc => ?_
        obtain ⟨cd, hcd, _⟩ := (hI.heap_open c).mpr hc
        rw [hcand] at hcd
        exact absurd hcd (List.not_mem_nil cd)
      have hstart : startc ∈ st.seen := by
        rcases hI.start_mem with h | h
        · rw [hopen] at h
          exact absurd h (Finset.not_mem_empty _)
        · exact h
      rintro ⟨l, h1, h2, h3, h4⟩
      have hall := seen_closed lvl startc endc st hI hopen l h3 h4 startc h1 hstart
      exact hI.end_not_seen (hall endc (getLast?_mem h2))
    | some pr =>
      obtain ⟨cand, rest⟩ := pr
      simp only [findLoop, hpop] at hres
      by_cases hend : cand.coord = endc
      · rw [if_pos hend] at hres
        simp at hres
      · rw [if_neg hend] at hres
        obtain ⟨hIf, _, _, _⟩ := step_pres lvl startc endc st cand rest hI hpop hend
        exact ih _ hIf hres

/-- Path reconstruction under the state invariant: following the origin map
from any tracked coordinate with fuel at least the number of strictly
cheaper inside cells yields a chain of adjacent cells with strictly
decreasing g-scores, from the given coordinate back to the start, all of
them tracked. -/
theorem reconstruct_spec (lvl : Level) (startc endc : Coord) (st : SearchState)
    (hP : PInv lvl startc endc st) :
    ∀ (fuel : ℕ) (c : Coord), (c ∈ st.openSet ∨ c ∈ st.seen) →
    ((allCells lvl).filter
      (fun x => (st.gcost x).getD 0 < (st.gcost c).getD 0)).card ≤ fuel →
    (reconstruct st.origin fuel c).Chain' Adj ∧
    (reconstruct st.origin fuel c).Pairwise
      (fun a b => (st.gcost b).getD 0 < (st.gcost a).getD 0) ∧
    (reconstruct st.origin fuel c).head? = some c ∧
    (reconstruct st.origin fuel c).getLast? = some startc ∧
    ∀ x ∈ reconstruct st.origin fuel c, (x ∈ st.openSet ∨ x ∈ st.seen) := by
  have hbase : ∀ (c : Coord), (c ∈ st.openSet ∨ c ∈ st.seen) → st.origin c = none →
      c = startc := by
    intro c hc hnone
    by_contra hne
    have h := hP.origin_tot c hc hne
    rw [hnone] at h
    simp at h
  have hstep : ∀ (c p : Coord), st.origin c = some p →
      ((allCells lvl).filter
        (fun x => (st.gcost x).getD 0 < (st.gcost p).getD 0)).card <
      ((allCells lvl).filter
        (fun x => (st.gcost x).getD 0 < (st.gcost c).getD 0)).card := by
    intro c p horig
    obtain ⟨_, hpseen, _, _, gp, gc, hgp, hgc, hlt⟩ := hP.origin_ok c p horig
    apply Finset.card_lt_card
    constructor
    · intro x hx
      obtain ⟨hx1, hx2⟩ := Finset.mem_filter.mp hx
      refine Finset.mem_filter.mpr ⟨hx1, ?_⟩
      rw [hgc]
      rw [hgp] at hx2
      simp only [Option.getD_some] at hx2 ⊢
      omega
    · intro hsub
      have hpmem : p ∈ (allCells lvl).filter
          (fun x => (st.gcost x).getD 0 < (st.gcost c).getD 0) := by
        refine Finset.mem_filter.mpr
          ⟨mem_allCells.mpr (hP.mem_ok p (Or.inr hpseen)).1, ?_⟩
        rw [hgp, hgc]
        simpa using hlt
      have := Finset.mem_filter.mp (hsub hpmem)
      rw [hgp] at this
      simp at this
  intro fuel
  induction fuel with
  | zero =>
    intro c hc hcard
    have hnone : st.origin c = none := by
      cases horig : st.origin c with
      | none => rfl
      | some p =>
        have := hstep c p horig
        omega
    have hcs := hbase c hc hnone
    subst hcs
    refine ⟨by simp [reconstruct], by simp [reconstruct], by simp [reconstruct],
      by simp [reconstruct], ?_⟩
    intro x hx
    simp only [reconstruct, List.mem_singleton] at hx
    rw [hx]
    exact hc
  | succ fuel ih =>
    intro c hc hcard
    cases horig : st.origin c with
    | none =>
      have hrec : reconstruct st.origin (fuel + 1) c = [c] := by
        simp [reconstruct, horig]
      have hcs := hbase c hc horig
      subst hcs
      rw [hrec]
      refine ⟨by simp, by simp, by simp, by simp, ?_⟩
      intro x hx
      rw [List.mem_singleton] at hx
      rw [hx]
      exact hc
    | some p =>
      have hrec : reconstruct st.origin (fuel + 1) c = c :: reconstruct st.origin fuel p := by
        simp [reconstruct, horig]
      obtain ⟨hadj, hpseen, _, _, gp, gc, hgp, hgc, hlt⟩ := hP.origin_ok c p horig
      have hcard' : ((allCells lvl).filter
          (fun x => (st.gcost x).getD 0 < (st.gcost p).getD 0)).card ≤ fuel := by
        have := hstep c p horig
        omega
      obtain ⟨ih1, ih2, ih3, ih4, ih5⟩ := ih p (Or.inr hpseen) hcard'
      have hbound : ∀ b ∈ reconstruct st.origin fuel p,
          (st.gcost b).getD 0 ≤ (st.gcost p).getD 0 := by
        intro b hb
        cases hl : reconstruct st.origin fuel p with
        | nil =>
          rw [hl] at hb
          exact absurd hb (List.not_mem_nil b)
        | cons q t =>
          rw [hl] at ih3 hb ih2
          rw [List.head?_cons, Option.some.injEq] at ih3
          subst ih3
          rcases List.mem_cons.mp hb with rfl | hb
          · exact le_refl _
          · exact le_of_lt ((List.pairwise_cons.mp ih2).1 b hb)
      rw [hrec]
      refine ⟨?_, ?_, by simp, ?_, ?_⟩
      · rw [List.chain'_cons']
        refine ⟨?_, ih1⟩
        intro b hb
        rw [ih3, Option.mem_def, Option.some.injEq] at hb
        rw [← hb]
        exact hadj.symm
      · rw [List.pairwise_cons]
        refine ⟨?_, ih2⟩
        intro b hb
        have h1 := hbound b hb
        rw [hgp] at h1
        rw [hgc]
        simp only [Option.getD_some] at h1 ⊢
        omega
      · cases hl : reconstruct st.origin fuel p with
        | nil =>
          rw [hl] at ih3
          simp at ih3
        | cons q t =>
          rw [hl] at ih4
          rw [List.getLast?_cons_cons]
          exact ih4
      · intro x hx
        rcases List.mem_cons.mp hx with rfl | hx
        · exact hc
        · exact ih5 x hx

/-- A successful loop outcome under the invariant yields a path whose
coordinate list is an adjacent, duplicate-free chain from the goal back to
the start through inside, passable cells. -/
theorem loop_success (lvl : Level) (startc endc : Coord) :
    ∀ (fuel : ℕ) (st : SearchState), LoopInv lvl startc endc st →
    ∀ res, findLoop lvl endc fuel st = some (some res) →
    res.coords.Chain' Adj ∧ res.coords.Nodup ∧
    res.coords.head? = some endc ∧ res.coords.getLast? = some startc ∧
    ∀ c ∈ res.coords, c.is_inside lvl ∧ lvl.index c = Land.Pass := by
  intro fuel
  induction fuel with
  | zero =>
    intro st _ res h
    simp [findLoop] at h
  | succ fuel ih =>
    intro st hI res hres
    cases hpop : popMin st.candidates with
    | none =>
      simp only [findLoop, hpop] at hres
      simp at hres
    | some pr =>
      obtain ⟨cand, rest⟩ := pr
      simp only [findLoop, hpop] at hres
      by_cases hend : cand.coord = endc
      · rw [if_pos hend] at hres
        rw [Option.some.injEq, Option.some.injEq] at hres
        have hcmem : cand.coord ∈ st.openSet :=
          (hI.heap_open _).mp ⟨cand, (popMin_some hpop).1, rfl⟩
        have hcard : ((allCells lvl).filter
            (fun x => (st.gcost x).getD 0 < (st.gcost cand.coord).getD 0)).card ≤
            lvl.width * lvl.height := by
          calc ((allCells lvl).filter _).card ≤ (allCells lvl).card :=
                Finset.card_filter_le _ _
            _ = lvl.width * lvl.height := card_allCells lvl
        obtain ⟨r1, r2, r3, r4, r5⟩ := reconstruct_spec lvl startc endc st hI.toPInv
          (lvl.width * lvl.height) cand.coord (Or.inl hcmem) hcard
        have hco : res.coords = reconstruct st.origin (lvl.width * lvl.height) cand.coord := by
          rw [← hres]
        rw [hco]
        refine ⟨r1, ?_, hend ▸ r3, r4, fun c hcm => hI.mem_ok c (r5 c hcm)⟩
        refine r2.imp ?_
        intro a b hab heq
        rw [heq] at hab
        exact lt_irrefl _ hab
      · rw [if_neg hend] at hres
        obtain ⟨hIf, _, _, _⟩ := step_pres lvl startc endc st cand rest hI hpop hend
        exact ih _ hIf res hres

theorem pass_of_ne_block {l : Land} (h : l ≠ Land.Block) : l = Land.Pass := by
  cases l
  · rfl
  · exact absurd rfl h

/-- Claim C7: for every finite grid and inside start and end coordinates,
the search terminates: blocked endpoints answer immediately, and otherwise
the loop — each iteration of which either ends the search or strictly grows
the closed set, never re-enqueueing a closed coordinate — reaches a result
within the `width·height + 1` iterations that `find` allots. -/
theorem find_terminates (lvl : Level) (s e : Coord)
    (hs : s.is_inside lvl) (_he : e.is_inside lvl) :
    lvl.index s = Land.Block ∨ lvl.index e = Land.Block ∨
    (findLoop lvl e (lvl.width * lvl.height + 1) (initState s e)).isSome := by
  by_cases hbs : lvl.index s = Land.Block
  · exact Or.inl hbs
  by_cases hbe : lvl.index e = Land.Block
  · exact Or.inr (Or.inl hbe)
  refine Or.inr (Or.inr ?_)
  apply loop_terminates lvl s e _ _ (initState_inv lvl s e hs (pass_of_ne_block hbs))
  have h1 := card_allCells lvl
  have h0 : (initState s e).seen.card = 0 := rfl
  omega

/-- Witness for C7 on the concrete 1×2 grid. -/
theorem find_terminates_witness :
    (Coord.mk 0 0).is_inside lvlW ∧ (Coord.mk 1 0).is_inside lvlW ∧
    (lvlW.index ⟨0, 0⟩ = Land.Block ∨ lvlW.index ⟨1, 0⟩ = Land.Block ∨
      (findLoop lvlW ⟨1, 0⟩ (lvlW.width * lvlW.height + 1)
        (initState ⟨0, 0⟩ ⟨1, 0⟩)).isSome) :=
  ⟨by decide, by decide, find_terminates lvlW ⟨0, 0⟩ ⟨1, 0⟩ (by decide) (by decide)⟩

/-- Claim C4: for every grid and inside, passable start and end coordinates,
`find` returns the "no path" result (`none`) iff no sequence of inside,
passable, pairwise 8-adjacent cells joins start to end. -/
theorem find_none_iff_no_path (lvl : Level) (s e : Coord)
    (hs : s.is_inside lvl) (_he : e.is_inside lvl)
    (hps : lvl.index s = Land.Pass) (hpe : lvl.index e = Land.Pass) :
    (find lvl s e = none ↔ ¬ ∃ l, IsPathSeq lvl s e l) := by
  have hguard : ¬ (lvl.index s = Land.Block ∨ lvl.index e = Land.Block) := by
    rintro (h | h)
    · rw [hps] at h
      exact Land.noConfusion h
    · rw [hpe] at h
      exact Land.noConfusion h
  have hI := initState_inv lvl s e hs hps
  have hterm : (findLoop lvl e (lvl.width * lvl.height + 1) (initState s e)).isSome := by
    apply loop_terminates lvl s e _ _ hI
    have h1 := card_allCells lvl
    have h0 : (initState s e).seen.card = 0 := rfl
    omega
  obtain ⟨r, hr⟩ := Option.isSome_iff_exists.mp hterm
  have hfind : find lvl s e = r := by
    unfold find
    rw [if_neg hguard, hr]
    rfl
  constructor
  · intro hnone
    rw [hfind] at hnone
    subst hnone
    exact loop_no_path lvl s e _ _ hI hr
  · intro hnp
    rw [hfind]
    cases r with
    | none => rfl
    | some res =>
      exfalso
      obtain ⟨c1, _, c3, c4, c5⟩ := loop_success lvl s e _ _ hI res hr
      refine hnp ⟨res.coords.reverse, ?_, ?_, ?_, ?_⟩
      · rw [List.head?_reverse]
        exact c4
      · rw [List.getLast?_reverse]
        exact c3
      · intro c hc
        exact c5 c (List.mem_reverse.mp hc)
      · rw [List.chain'_reverse]
        exact c1.imp (fun _ _ h => h.symm)

/-- Witness for C4 on the concrete 1×2 grid. -/
theorem find_none_iff_no_path_witness :
    (Coord.mk 0 0).is_inside lvlW ∧ (Coord.mk 1 0).is_inside lvlW ∧
    lvlW.index ⟨0, 0⟩ = Land.Pass ∧ lvlW.index ⟨1, 0⟩ = Land.Pass ∧
    (find lvlW ⟨0, 0⟩ ⟨1, 0⟩ = none ↔ ¬ ∃ l, IsPathSeq lvlW ⟨0, 0⟩ ⟨1, 0⟩ l) :=
  ⟨by decide, by decide, by decide, by decide,
   find_none_iff_no_path lvlW ⟨0, 0⟩ ⟨1, 0⟩ (by decide) (by decide) (by decide) (by decide)⟩

/-- Claim C6: in every path returned by `find` on a rectangular grid,
consecutive coordinates differ by at most 1 along each axis, and all
coordinates in the path are pairwise distinct. -/
theorem find_path_shape (lvl : Level) (s e : Coord) (res : PathRes)
    (hwf : lvl.WF) (hres : find lvl s e = some res) :
    res.coords.Chain' AxisClose ∧ res.coords.Nodup := by
  unfold find at hres
  by_cases hguard : lvl.index s = Land.Block ∨ lvl.index e = Land.Block
  · rw [if_pos hguard] at hres
    exact absurd hres (by simp)
  rw [if_neg hguard] at hres
  push_neg at hguard
  have hps : lvl.index s = Land.Pass := pass_of_ne_block hguard.1
  have hs : s.is_inside lvl := index_pass_inside hwf hps
  have hI := initState_inv lvl s e hs hps
  have hloop : findLoop lvl e (lvl.width * lvl.height + 1) (initState s e)
      = some (some res) := by
    cases hl : findLoop lvl e (lvl.width * lvl.height + 1) (initState s e) with
    | none =>
      rw [hl] at hres
      exact absurd hres (by simp [Option.join])
    | some r =>
      rw [hl] at hres
      cases r with
      | none => exact absurd hres (by simp [Option.join])
      | some res' =>
        have : res' = res := by simpa [Option.join] using hres
        rw [this]
  obtain ⟨c1, c2, _, _, _⟩ := loop_success lvl s e _ _ hI res hloop
  exact ⟨c1.imp (fun _ _ h => h.2), c2⟩

/-- Witness for C6 on the concrete 1×2 grid. -/
theorem find_path_shape_witness :
    lvlW.WF ∧ find lvlW ⟨0, 0⟩ ⟨1, 0⟩ = some ⟨[⟨1, 0⟩, ⟨0, 0⟩], ⟨500, 0⟩⟩ ∧
    (PathRes.mk [⟨1, 0⟩, ⟨0, 0⟩] ⟨500, 0⟩).coords.Chain' AxisClose ∧
    (PathRes.mk [⟨1, 0⟩, ⟨0, 0⟩] ⟨500, 0⟩).coords.Nodup :=
  ⟨⟨rfl, by decide⟩, by decide,
   (find_path_shape lvlW ⟨0, 0⟩ ⟨1, 0⟩ ⟨[⟨1, 0⟩, ⟨0, 0⟩], ⟨500, 0⟩⟩ ⟨rfl, by decide⟩
      (by decide)).1,
   (find_path_shape lvlW ⟨0, 0⟩ ⟨1, 0⟩ ⟨[⟨1, 0⟩, ⟨0, 0⟩], ⟨500, 0⟩⟩ ⟨rfl, by decide⟩
      (by decide)).2⟩

/-! Claims C8 and C9: level construction. -/

theorem parseRow_eq_none {l : List Char} :
    parseRow l = none ↔ ∃ c ∈ l, c ≠ '.' ∧ c ≠ '#' := by
  induction l with
  | nil => simp [parseRow]
  | cons c cs ih =>
    constructor
    · intro h
      by_cases h1 : c = '.'
      · subst h1
        simp only [parseRow, if_pos rfl] at h
        cases hp : parseRow cs with
        | none =>
          obtain ⟨x, hx, h2⟩ := ih.mp hp
          exact ⟨x, List.mem_cons_of_mem _ hx, h2⟩
        | some row =>
          rw [hp] at h
          exact absurd h (by simp)
      · by_cases h2 : c = '#'
        · subst h2
          simp only [parseRow, if_neg (show ¬ ('#' : Char) = '.' by decide), if_pos rfl] at h
          cases hp : parseRow cs with
          | none =>
            obtain ⟨x, hx, h3⟩ := ih.mp hp
            exact ⟨x, List.mem_cons_of_mem _ hx, h3⟩
          | some row =>
            rw [hp] at h
            exact absurd h (by simp)
        · exact ⟨c, List.mem_cons_self _ _, h1, h2⟩
    · rintro ⟨x, hx, hx1, hx2⟩
      rcases List.mem_cons.mp hx with rfl | hx
      · simp only [parseRow, if_neg hx1, if_neg hx2]
      · have hn : parseRow cs = none := ih.mpr ⟨x, hx, hx1, hx2⟩
        by_cases h1 : c = '.'
        · subst h1
          simp [parseRow, hn]
        · by_cases h2 : c = '#'
          · subst h2
            simp [parseRow, hn]
          · simp [parseRow, h1, h2]

theorem buildRows_eq_none {w : ℕ} {ls : List (List Char)} :
    buildRows w ls = none ↔ ∃ l ∈ ls, l.length ≠ w ∨ parseRow l = none := by
  induction ls with
  | nil => simp [buildRows]
  | cons l t ih =>
    constructor
    · intro h
      by_cases hlen : l.length ≠ w
      · exact ⟨l, List.mem_cons_self _ _, Or.inl hlen⟩
      · simp only [buildRows, if_neg hlen] at h
        cases hp : parseRow l with
        | none => exact ⟨l, List.mem_cons_self _ _, Or.inr hp⟩
        | some row =>
          rw [hp] at h
          cases hb : buildRows w t with
          | none =>
            obtain ⟨x, hx, hx2⟩ := ih.mp hb
            exact ⟨x, List.mem_cons_of_mem _ hx, hx2⟩
          | some rows =>
            rw [hb] at h
            exact absurd h (by simp)
    · rintro ⟨x, hx, hx2⟩
      rcases List.mem_cons.mp hx with rfl | hx
      · rcases hx2 with hx2 | hx2
        · simp [buildRows, hx2]
        · by_cases hlen : x.length ≠ w
          · simp [buildRows, hlen]
          · simp [buildRows, hlen, hx2]
      · by_cases hlen : l.length ≠ w
        · simp [buildRows, hlen]
        · have hn : buildRows w t = none := ih.mpr ⟨x, hx, hx2⟩
          simp only [buildRows, if_neg hlen, hn]
          cases parseRow l <;> simp

/-- Claim C8: level construction from text fails with the malformed-grid
error iff the input has no lines, some line's length differs from the first
line's length, or some character is neither `'.'` nor `'#'`; otherwise it
returns a grid whose height is the number of lines and whose width is the
first line's length. -/
theorem fromText_spec (cs : List Char) :
    (Level.fromText cs = none ↔ MalformedLines (linesOf cs)) ∧
    ∀ lvl, Level.fromText cs = some lvl →
      lvl.height = (linesOf cs).length ∧ lvl.width = ((linesOf cs).headD []).length := by
  unfold Level.fromText Level.fromLines
  cases hls : linesOf cs with
  | nil =>
    refine ⟨?_, ?_⟩
    · simp [MalformedLines]
    · intro lvl h
      simp at h
  | cons l t =>
    rw [if_neg (by simp)]
    constructor
    · constructor
      · intro h
        have h' : Option.map (fun rows => (⟨rows, (l :: t).length, l.length⟩ : Level))
            (buildRows l.length (l :: t)) = none := h
        cases hb : buildRows l.length (l :: t) with
        | some rows =>
          rw [hb] at h'
          exact absurd h' (by simp)
        | none =>
          obtain ⟨x, hx, hx2⟩ := buildRows_eq_none.mp hb
          rcases hx2 with hx2 | hx2
          · exact Or.inr (Or.inl ⟨x, hx, hx2⟩)
          · exact Or.inr (Or.inr ⟨x, hx, parseRow_eq_none.mp hx2⟩)
      · intro hmal
        show Option.map (fun rows => (⟨rows, (l :: t).length, l.length⟩ : Level))
            (buildRows l.length (l :: t)) = none
        have hn : buildRows l.length (l :: t) = none := by
          rcases hmal with hmal | hmal | hmal
          · exact absurd hmal (by simp)
          · obtain ⟨x, hx, hx2⟩ := hmal
            exact buildRows_eq_none.mpr ⟨x, hx, Or.inl hx2⟩
          · obtain ⟨x, hx, hx2⟩ := hmal
            exact buildRows_eq_none.mpr ⟨x, hx, Or.inr (parseRow_eq_none.mpr hx2)⟩
        rw [hn]
        rfl
    · intro lvl h
      have h' : Option.map (fun rows => (⟨rows, (l :: t).length, l.length⟩ : Level))
          (buildRows l.length (l :: t)) = some lvl := h
      cases hb : buildRows l.length (l :: t) with
      | none =>
        rw [hb] at h'
        exact absurd h' (by simp)
      | some rows =>
        rw [hb] at h'
        simp only [Option.map_some', Option.some.injEq] at h'
        rw [← h']
        exact ⟨rfl, rfl⟩

/-- Witness for C8 on the concrete text `".#"`. -/
theorem fromText_spec_witness :
    (Level.fromText ['.', '#'] = none ↔ MalformedLines (linesOf ['.', '#'])) ∧
    (Level.mk [[Land.Pass, Land.Block]] 1 2).height = (linesOf ['.', '#']).length ∧
    (Level.mk [[Land.Pass, Land.Block]] 1 2).width =
      ((linesOf ['.', '#']).headD []).length :=
  ⟨(fromText_spec ['.', '#']).1,
   (fromText_spec ['.', '#']).2 ⟨[[Land.Pass, Land.Block]], 1, 2⟩ (by decide)⟩

theorem splitNl_replicate (k : ℕ) :
    splitNl (List.replicate k '\n') = List.replicate (k + 1) ([] : List Char) := by
  induction k with
  | zero => rfl
  | succ m ih =>
    rw [List.replicate_succ, List.replicate_succ _ (m + 1)]
    show splitNl ('\n' :: List.replicate m '\n') = _
    simp [splitNl, ih]

theorem buildRows_empty_rows (j : ℕ) :
    buildRows 0 (List.replicate j ([] : List Char)) =
      some (List.replicate j ([] : List Land)) := by
  induction j with
  | zero => rfl
  | succ m ih =>
    rw [List.replicate_succ, List.replicate_succ _ m]
    simp [buildRows, parseRow, ih]

theorem linesOf_newlines (m : ℕ) :
    linesOf (List.replicate (m + 1) '\n') = List.replicate (m + 1) ([] : List Char) := by
  unfold linesOf
  rw [if_neg (by simp), if_pos (by simp [List.getLast?_replicate])]
  rw [splitNl_replicate]
  rw [List.replicate_succ', List.dropLast_concat, List.map_replicate]
  rfl

/-- Claim C9: level construction accepts input consisting solely of newline
characters: it returns a grid with width 0 and height equal to the number of
lines (empty lines), and in that grid `is_inside` is false for every
coordinate. -/
theorem fromText_newlines (k : ℕ) (hk : 1 ≤ k) :
    Level.fromText (List.replicate k '\n') =
      some ⟨List.replicate k ([] : List Land), k, 0⟩ ∧
    ∀ c : Coord, ¬ c.is_inside ⟨List.replicate k ([] : List Land), k, 0⟩ := by
  obtain ⟨m, rfl⟩ : ∃ m, k = m + 1 := ⟨k - 1, by omega⟩
  constructor
  · unfold Level.fromText Level.fromLines
    rw [linesOf_newlines]
    rw [if_neg (by simp)]
    have hhead : ((List.replicate (m + 1) ([] : List Char)).headD []).length = 0 := by
      rw [List.replicate_succ]
      rfl
    show Option.map _ (buildRows ((List.replicate (m + 1) ([] : List Char)).headD []).length
        (List.replicate (m + 1) ([] : List Char))) = _
    rw [hhead, buildRows_empty_rows]
    simp [List.length_replicate]
  · rintro c ⟨h1, _⟩
    have h1' : c.x < 0 := h1
    omega

/-- Witness for C9 with two newline characters. -/
theorem fromText_newlines_witness :
    1 ≤ 2 ∧
    Level.fromText (List.replicate 2 '\n') =
      some ⟨List.replicate 2 ([] : List Land), 2, 0⟩ ∧
    ¬ (Coord.mk 0 0).is_inside ⟨List.replicate 2 ([] : List Land), 2, 0⟩ :=
  ⟨by decide, (fromText_newlines 2 (by decide)).1, (fromText_newlines 2 (by decide)).2 ⟨0, 0⟩⟩

/-- Witness for the amended C3 at the concrete counterexample state. -/
theorem relax_open_neighbor_witness :
    (⟨2, 2⟩ : Coord) ∈ cexRun.openSet ∧
    (relaxNeighbor ⟨3, 0⟩ ⟨1, 2⟩ 500 cexRun ⟨2, 2⟩).candidates = cexRun.candidates :=
  ⟨by decide,
   (relax_open_neighbor ⟨3, 0⟩ ⟨1, 2⟩ 500 cexRun ⟨2, 2⟩ (by decide)).1⟩
